import Mathlib

/-!
Verification of `hls_encrypt_watcher.py` against its specification.

Bytes are modelled as natural numbers and byte strings as lists of
naturals.  The AES-128 block permutation comes from an external
library (`Crypto.Cipher.AES`), so the block transformation applied to
each 16-byte block is abstracted as a function `F` on byte lists; the
CBC chaining, carry-over buffering, PKCS#7 padding, playlist
rewriting, dedup bookkeeping and stability polling are translated
from the source.  Text lines are modelled as `String`, with the
`str.startswith`, `str.lower`, `os.path.basename` and
`os.path.splitext` operations implemented over the character lists.
Modification times (floats in the source) are modelled as integers;
only their linear order is ever used.
-/

/-! ## Byte-level model of the streaming cipher -/

abbrev BLOCKSIZE : Nat := 16

abbrev READ_CHUNK : Nat := 64 * 1024

/-- From `pkcs7_pad_length` in hls_encrypt_watcher.py:
`BLOCKSIZE - (length % BLOCKSIZE)`. -/
def pkcs7_pad_length (length : Nat) : Nat := BLOCKSIZE - length % BLOCKSIZE

/-- Pointwise XOR of two byte strings (the combining step of CBC). -/
def xorBlock (a b : List Nat) : List Nat := List.zipWith (fun x y => x ^^^ y) a b

/-- CBC encryption of a block-aligned buffer, as performed by a
`cipher.encrypt` call of a pycryptodome `MODE_CBC` object: `st` is the
chaining state (the IV, or the last ciphertext block so far), `F` the
block permutation.  Returns the ciphertext together with the new
chaining state, so that successive calls on one cipher object can be
modelled by threading the state. -/
def cipherEncrypt (F : List Nat → List Nat) (st : List Nat) (data : List Nat) :
    List Nat × List Nat :=
  if h : data = [] then ([], st)
  else
    let c := F (xorBlock st (data.take BLOCKSIZE))
    let r := cipherEncrypt F c (data.drop BLOCKSIZE)
    (c ++ r.1, r.2)
termination_by data.length
decreasing_by
  simp only [List.length_drop]
  have hpos : 0 < data.length := List.length_pos.mpr h
  have hb : BLOCKSIZE = 16 := rfl
  omega

/-- CBC decryption with the inverse block permutation `G`, threading
the chaining state like `cipherEncrypt`. -/
def cipherDecrypt (G : List Nat → List Nat) (st : List Nat) (data : List Nat) :
    List Nat × List Nat :=
  if h : data = [] then ([], st)
  else
    let c := data.take BLOCKSIZE
    let r := cipherDecrypt G c (data.drop BLOCKSIZE)
    (xorBlock st (G c) ++ r.1, r.2)
termination_by data.length
decreasing_by
  simp only [List.length_drop]
  have hpos : 0 < data.length := List.length_pos.mpr h
  have hb : BLOCKSIZE = 16 := rfl
  omega

/-- The read loop of `encrypt_file`: `st` is the CBC chaining state,
`prev` the carried trailing partial block, `chunks` the successive
results of `fin.read(READ_CHUNK)`.  The source pads and stops at the
first empty read (end of file); an empty chunk in the list therefore
also finalizes, exactly like the `if not chunk` branch. -/
def encryptLoop (F : List Nat → List Nat) : List Nat → List Nat → List (List Nat) → List Nat
  | st, prev, [] =>
    let pad_len := pkcs7_pad_length prev.length
    let padded := prev ++ List.replicate pad_len pad_len
    if padded = [] then [] else (cipherEncrypt F st padded).1
  | st, prev, chunk :: rest =>
    if chunk = [] then
      let pad_len := pkcs7_pad_length prev.length
      let padded := prev ++ List.replicate pad_len pad_len
      if padded = [] then [] else (cipherEncrypt F st padded).1
    else
      let data := prev ++ chunk
      let full_len := data.length / BLOCKSIZE * BLOCKSIZE
      if 0 < full_len then
        (cipherEncrypt F st (data.take full_len)).1 ++
          encryptLoop F (cipherEncrypt F st (data.take full_len)).2 (data.drop full_len) rest
      else
        encryptLoop F st (data.drop full_len) rest

/-- From `encrypt_file` in hls_encrypt_watcher.py: stream the chunks
through the cipher starting from the IV with an empty carry. -/
def encrypt_file (F : List Nat → List Nat) (iv : List Nat) (chunks : List (List Nat)) :
    List Nat :=
  encryptLoop F iv [] chunks

/-- PKCS#7 padding of a whole buffer. -/
def pkcs7Pad (data : List Nat) : List Nat :=
  data ++ List.replicate (pkcs7_pad_length data.length) (pkcs7_pad_length data.length)

/-- Modelled from the specification wording for the refinement claim:
whole-buffer AES-128-CBC encryption with PKCS#7 padding — pad the
entire plaintext, then CBC-encrypt it in a single pass from the IV. -/
def wholeBufferEncrypt (F : List Nat → List Nat) (iv data : List Nat) : List Nat :=
  (cipherEncrypt F iv (pkcs7Pad data)).1

/-- Standard PKCS#7 unpadding: drop as many trailing bytes as the
value of the last byte says. -/
def pkcs7_unpad (data : List Nat) : List Nat :=
  data.take (data.length - data.getLastD 0)

/-! ## String operations used by the playlist rewriter and classifier -/

/-- Boolean prefix test on character lists. -/
def listPrefixB : List Char → List Char → Bool
  | _, [] => true
  | [], _ :: _ => false
  | a :: as, b :: bs => a = b && listPrefixB as bs

/-- Model of `str.startswith` on strings. -/
def startswith (s p : String) : Bool := listPrefixB s.data p.data

/-- Index of the first list element satisfying `p` (the `for`/`break`
scans of `insert_ext_x_key`). -/
def findFirstIdx (p : α → Bool) : List α → Option Nat
  | [] => none
  | a :: as => if p a then some 0 else (findFirstIdx p as).map (· + 1)

/-- Model of Python `list.insert(i, x)`: insert before index `i`,
appending when `i` is past the end. -/
def listInsert (lines : List α) (i : Nat) (x : α) : List α :=
  lines.take i ++ x :: lines.drop i

/-- From `insert_ext_x_key` in hls_encrypt_watcher.py: replace the
first `#EXT-X-KEY` line in place, else insert before the first
`#EXT-X-MAP` line, else before the first line that starts with
`#EXTINF` or is not a comment, else append at the end. -/
def insert_ext_x_key (lines : List String) (key_line : String) : List String :=
  match findFirstIdx (fun l => startswith l "#EXT-X-KEY") lines with
  | some i => lines.set i key_line
  | none =>
    let insert_at :=
      match findFirstIdx (fun l => startswith l "#EXT-X-MAP") lines with
      | some i => i
      | none =>
        match findFirstIdx (fun l => startswith l "#EXTINF" || !startswith l "#") lines with
        | some i => i
        | none => lines.length
    listInsert lines insert_at key_line

/-- The lowercase hexadecimal digit of a value below 16. -/
def hexDigit (n : Nat) : Char :=
  if n < 10 then Char.ofNat (48 + n) else Char.ofNat (97 + (n - 10))

/-- Two lowercase hex digits of one byte. -/
def byteHex (b : Nat) : String :=
  String.mk [hexDigit (b / 16 % 16), hexDigit (b % 16)]

/-- Model of `bytes.hex()`. -/
def bytesHex (bs : List Nat) : String := String.join (bs.map byteHex)

/-- From `build_ext_x_key` in hls_encrypt_watcher.py: the generated
manifest tag line, with an `IV=` attribute only when an IV is
configured. -/
def build_ext_x_key (key_uri : String) (iv_bytes : Option (List Nat)) : String :=
  let line := "#EXT-X-KEY:METHOD=AES-128,URI=\"" ++ key_uri ++ "\""
  let line2 :=
    match iv_bytes with
    | some iv => line ++ ",IV=0x" ++ bytesHex iv
    | none => line
  line2 ++ "\n"

/-- Model of the expression `self.iv_bytes or bytes(16)` used when
calling `encrypt_file` in `_process_segment`: Python `or` takes the
right operand when the left is `None` or empty. -/
def ivOr (iv_bytes : Option (List Nat)) : List Nat :=
  match iv_bytes with
  | none => List.replicate BLOCKSIZE 0
  | some l => if l = [] then List.replicate BLOCKSIZE 0 else l

/-! ## Path classification -/

/-- Model of `os.path.basename`: the part after the last slash. -/
def basename (p : String) : String :=
  String.mk ((p.data.reverse.takeWhile (fun c => !(c = '/'))).reverse)

/-- Index of the last dot in a character list, if any. -/
def lastDotIdx : List Char → Option Nat
  | [] => none
  | c :: cs =>
    match lastDotIdx cs with
    | some i => some (i + 1)
    | none => if c = '.' then some 0 else none

/-- Model of the extension component of `os.path.splitext` on a
basename: everything from the last dot on, unless every character
before that dot is itself a dot (leading dots never start an
extension). -/
def splitextExt (base : String) : String :=
  match lastDotIdx base.data with
  | none => ""
  | some d =>
    if (base.data.take d).all (fun c => c = '.') then ""
    else String.mk (base.data.drop d)

/-- Model of `str.lower`. -/
def lowerStr (s : String) : String := String.mk (s.data.map Char.toLower)

/-- The segment-matching configuration of `HLSHandler`: the extension
set `exts` and, optionally, a compiled regular expression whose
`search` method is abstracted as a Boolean predicate on the basename
(the regex engine is external). -/
structure MatchCfg where
  exts : List String
  search : Option (String → Bool)

/-- From `_match_segment` in hls_encrypt_watcher.py: regex search on
the basename when a pattern is configured, else membership of the
lowercased extension in the extension set. -/
def _match_segment (cfg : MatchCfg) (path : String) : Bool :=
  let base := basename path
  match cfg.search with
  | some f => f base
  | none => cfg.exts.contains (lowerStr (splitextExt base))

/-! ## Dedup state and event handling -/

/-- Lookup in the `_processed_mtime` dictionary (string keys,
modification times). -/
def dictGet : List (String × Int) → String → Option Int
  | [], _ => none
  | (k, v) :: rest, key => if k = key then some v else dictGet rest key

/-- Dictionary assignment `d[key] = v`. -/
def dictSet : List (String × Int) → String → Int → List (String × Int)
  | [], key, v => [(key, v)]
  | (k, w) :: rest, key, v =>
    if k = key then (key, v) :: rest else (k, w) :: dictSet rest key v

/-- Dictionary removal `d.pop(key, None)`: the key is removed (keys of
a Python dict are unique, so dropping every pair with this key agrees
with dict semantics). -/
def dictPop (d : List (String × Int)) (key : String) : List (String × Int) :=
  d.filter (fun kv => !(kv.1 = key))

/-- From `_should_process` in hls_encrypt_watcher.py, as a transition
on the `_processed_mtime` dictionary.  `mtime` is the result of
`os.path.getmtime` (`none` models `FileNotFoundError`).  Returns the
new dictionary and whether processing proceeds. -/
def _should_process (d : List (String × Int)) (src_path : String) (mtime : Option Int) :
    List (String × Int) × Bool :=
  match mtime with
  | none => (d, false)
  | some m =>
    match dictGet d src_path with
    | some prev => if m ≤ prev then (d, false) else (dictSet d src_path m, true)
    | none => (dictSet d src_path m, true)

/-- From `_stable_wait` in hls_encrypt_watcher.py: the polling loop.
`obs k` is the result of the `os.path.getsize` call at attempt `k`
(`none` models `FileNotFoundError`), `tries` the remaining attempts,
`last_size` the previously observed size and `k` the attempt index. -/
def stableLoop (obs : Nat → Option Int) : Nat → Int → Nat → Bool
  | 0, _, _ => false
  | tries + 1, last_size, k =>
    match obs k with
    | none => false
    | some size => if size = last_size then true else stableLoop obs tries size (k + 1)

/-- `_stable_wait` itself: up to `stable_tries` polls starting from
the sentinel size `-1`. -/
def _stable_wait (obs : Nat → Option Int) (stable_tries : Nat) : Bool :=
  stableLoop obs stable_tries (-1) 0

/-- The state touched by delete events: the set of currently existing
mirrored destination files, and the dedup dictionary. -/
structure WatchState where
  mirror : List String
  processed_mtime : List (String × Int)

/-- From `_delete_mirror_path` in hls_encrypt_watcher.py: when the
mirrored destination file exists it is removed and the dedup entry of
the source path is popped; otherwise nothing happens.  `relDst`
abstracts `_rel_dst` (pure path arithmetic on the two roots). -/
def _delete_mirror_path (relDst : String → String) (st : WatchState) (src_path : String) :
    WatchState :=
  let dst_path := relDst src_path
  if st.mirror.contains dst_path then
    ⟨st.mirror.erase dst_path, dictPop st.processed_mtime src_path⟩
  else st

/-- From `on_deleted` in hls_encrypt_watcher.py: only paths that
classify as segments have their mirror removed. -/
def on_deleted (cfg : MatchCfg) (relDst : String → String) (st : WatchState)
    (src_path : String) : WatchState :=
  if _match_segment cfg src_path then _delete_mirror_path relDst st src_path else st

/-- Outcome of one `_process_segment` call. -/
inductive SegOutcome
  | processed
  | encryptFailed
  | skippedVanished
  | skippedDedup
deriving DecidableEq, Repr

/-- From `_process_segment` in hls_encrypt_watcher.py, as a transition
on the dedup dictionary.  `fsExists` models the `os.path.exists`
check, `fsMtime` the `os.path.getmtime` result inside
`_should_process`, and `encOk` whether `encrypt_file` completed
without raising.  The stability wait between the dedup check and the
encryption only logs a warning and touches no state. -/
def _process_segment (d : List (String × Int)) (src_path : String)
    (fsExists : Bool) (fsMtime : Option Int) (encOk : Bool) :
    List (String × Int) × SegOutcome :=
  if fsExists = false then (d, .skippedVanished)
  else
    let r := _should_process d src_path fsMtime
    if r.2 = false then (r.1, .skippedDedup)
    else (r.1, if encOk then .processed else .encryptFailed)

/-! ## Helper lemmas about the cipher model -/

theorem cipherEncrypt_nil (F : List Nat → List Nat) (st : List Nat) :
    cipherEncrypt F st [] = ([], st) := by
  rw [cipherEncrypt]
  simp

theorem cipherEncrypt_expand (F : List Nat → List Nat) (st data : List Nat) (h : data ≠ []) :
    cipherEncrypt F st data =
      (F (xorBlock st (data.take BLOCKSIZE)) ++
        (cipherEncrypt F (F (xorBlock st (data.take BLOCKSIZE))) (data.drop BLOCKSIZE)).1,
       (cipherEncrypt F (F (xorBlock st (data.take BLOCKSIZE))) (data.drop BLOCKSIZE)).2) := by
  rw [cipherEncrypt]
  simp [h]

theorem pkcs7_pad_length_pos (n : Nat) : 0 < pkcs7_pad_length n := by
  have h : n % BLOCKSIZE < BLOCKSIZE := Nat.mod_lt n (by decide)
  unfold pkcs7_pad_length
  omega

theorem pkcs7_pad_length_le (n : Nat) : pkcs7_pad_length n ≤ BLOCKSIZE := by
  unfold pkcs7_pad_length
  omega

theorem pkcs7Pad_ne_nil (data : List Nat) : pkcs7Pad data ≠ [] := by
  unfold pkcs7Pad
  intro h
  rcases List.append_eq_nil.mp h with ⟨-, h2⟩
  have := pkcs7_pad_length_pos data.length
  simp [List.replicate_eq_nil_iff] at h2
  omega

theorem pkcs7Pad_length (data : List Nat) :
    (pkcs7Pad data).length = data.length + pkcs7_pad_length data.length := by
  simp [pkcs7Pad]

theorem pkcs7Pad_length_mod (data : List Nat) :
    (pkcs7Pad data).length % BLOCKSIZE = 0 := by
  rw [pkcs7Pad_length]
  unfold pkcs7_pad_length
  show (data.length + (16 - data.length % 16)) % 16 = 0
  omega

theorem cipherEncrypt_append (F : List Nat → List Nat) :
    ∀ (n : Nat) (st a b : List Nat), a.length = n → a.length % BLOCKSIZE = 0 →
      cipherEncrypt F st (a ++ b) =
        ((cipherEncrypt F st a).1 ++ (cipherEncrypt F (cipherEncrypt F st a).2 b).1,
         (cipherEncrypt F (cipherEncrypt F st a).2 b).2) := by
  intro n
  induction n using Nat.strong_induction_on with
  | _ n ih =>
    intro st a b hn hmod
    rcases Decidable.em (a = []) with ha | ha
    · subst ha
      simp [cipherEncrypt_nil]
    · have hpos : 0 < a.length := List.length_pos.mpr ha
      have h16 : BLOCKSIZE ≤ a.length := by
        show 16 ≤ a.length
        have hm : a.length % 16 = 0 := hmod
        omega
      have hab : a ++ b ≠ [] := fun hcon => ha (List.append_eq_nil.mp hcon).1
      rw [cipherEncrypt_expand F st (a ++ b) hab, cipherEncrypt_expand F st a ha]
      rw [List.take_append_of_le_length h16, List.drop_append_of_le_length h16]
      have hlen : (a.drop BLOCKSIZE).length = a.length - BLOCKSIZE := List.length_drop _ _
      have hmod2 : (a.drop BLOCKSIZE).length % BLOCKSIZE = 0 := by
        rw [hlen]
        show (a.length - 16) % 16 = 0
        have hm : a.length % 16 = 0 := hmod
        omega
      have hlt : (a.drop BLOCKSIZE).length < n := by
        rw [hlen]
        show a.length - 16 < n
        omega
      rw [ih _ hlt _ _ b rfl hmod2]
      simp [List.append_assoc]

theorem encryptLoop_eq (F : List Nat → List Nat) :
    ∀ (chunks : List (List Nat)) (st prev : List Nat), (∀ c ∈ chunks, c ≠ []) →
      encryptLoop F st prev chunks = (cipherEncrypt F st (pkcs7Pad (prev ++ chunks.flatten))).1 := by
  intro chunks
  induction chunks with
  | nil =>
    intro st prev _
    have hne := pkcs7Pad_ne_nil prev
    unfold encryptLoop pkcs7Pad
    unfold pkcs7Pad at hne
    simp only [List.flatten_nil, List.append_nil]
    rw [if_neg hne]
  | cons c rest ih =>
    intro st prev hne
    have hc : c ≠ [] := hne c (List.mem_cons_self c rest)
    have hrest : ∀ x ∈ rest, x ≠ [] := fun x hx => hne x (List.mem_cons_of_mem c hx)
    simp only [encryptLoop]
    rw [if_neg hc]
    have hfull_le : (prev ++ c).length / BLOCKSIZE * BLOCKSIZE ≤ (prev ++ c).length :=
      Nat.div_mul_le_self _ _
    have hfull_mod : ((prev ++ c).length / BLOCKSIZE * BLOCKSIZE) % BLOCKSIZE = 0 :=
      Nat.mul_mod_left _ _
    have hkey : pkcs7Pad (prev ++ (c :: rest).flatten) =
        ((prev ++ c).take ((prev ++ c).length / BLOCKSIZE * BLOCKSIZE)) ++
          pkcs7Pad ((prev ++ c).drop ((prev ++ c).length / BLOCKSIZE * BLOCKSIZE) ++ rest.flatten) := by
      have hjoin : prev ++ (c :: rest).flatten = (prev ++ c) ++ rest.flatten := by
        simp [List.append_assoc]
      unfold pkcs7Pad
      rw [hjoin]
      simp only [List.length_append, List.length_drop]
      have hp : pkcs7_pad_length ((prev ++ c).length + rest.flatten.length) =
          pkcs7_pad_length ((prev ++ c).length -
            (prev ++ c).length / BLOCKSIZE * BLOCKSIZE + rest.flatten.length) := by
        have hm := hfull_mod
        have hle := hfull_le
        unfold pkcs7_pad_length
        simp only [BLOCKSIZE] at *
        omega
      rw [List.length_append] at hp
      rw [hp]
      simp only [← List.append_assoc]
      rw [List.take_append_drop]
    by_cases hf : 0 < (prev ++ c).length / BLOCKSIZE * BLOCKSIZE
    · rw [if_pos hf]
      rw [ih _ _ hrest]
      rw [hkey]
      have htakemod : ((prev ++ c).take ((prev ++ c).length / BLOCKSIZE * BLOCKSIZE)).length %
          BLOCKSIZE = 0 := by
        rw [List.length_take]
        have hm := hfull_mod
        have hle := hfull_le
        simp only [BLOCKSIZE] at *
        omega
      rw [cipherEncrypt_append F
        ((prev ++ c).take ((prev ++ c).length / BLOCKSIZE * BLOCKSIZE)).length
        st _ _ rfl htakemod]
    · rw [if_neg hf]
      rw [ih _ _ hrest]
      have hf0 : (prev ++ c).length / BLOCKSIZE * BLOCKSIZE = 0 := by omega
      rw [hf0, List.drop_zero]
      have hjoin : prev ++ (c :: rest).flatten = (prev ++ c) ++ rest.flatten := by
        simp [List.append_assoc]
      rw [hjoin]

theorem cipherDecrypt_nil (G : List Nat → List Nat) (st : List Nat) :
    cipherDecrypt G st [] = ([], st) := by
  rw [cipherDecrypt]
  simp

theorem cipherDecrypt_expand (G : List Nat → List Nat) (st data : List Nat) (h : data ≠ []) :
    cipherDecrypt G st data =
      (xorBlock st (G (data.take BLOCKSIZE)) ++
        (cipherDecrypt G (data.take BLOCKSIZE) (data.drop BLOCKSIZE)).1,
       (cipherDecrypt G (data.take BLOCKSIZE) (data.drop BLOCKSIZE)).2) := by
  rw [cipherDecrypt]
  simp [h]

theorem xorBlock_length (a b : List Nat) : (xorBlock a b).length = min a.length b.length := by
  simp [xorBlock]

theorem xorBlock_cancel (a : List Nat) : ∀ b : List Nat, a.length = b.length →
    xorBlock a (xorBlock a b) = b := by
  induction a with
  | nil =>
    intro b hb
    cases b with
    | nil => rfl
    | cons y ys => simp at hb
  | cons x xs ih =>
    intro b hb
    cases b with
    | nil => simp at hb
    | cons y ys =>
      simp only [xorBlock, List.zipWith_cons_cons, List.cons.injEq]
      constructor
      · rw [← Nat.xor_assoc, Nat.xor_self, Nat.zero_xor]
      · exact ih ys (by simpa using hb)

theorem cipherEncrypt_length (F : List Nat → List Nat)
    (hF : ∀ b : List Nat, b.length = BLOCKSIZE → (F b).length = BLOCKSIZE) :
    ∀ (n : Nat) (st data : List Nat), data.length = n → st.length = BLOCKSIZE →
      data.length % BLOCKSIZE = 0 →
      (cipherEncrypt F st data).1.length = data.length ∧
        (cipherEncrypt F st data).2.length = BLOCKSIZE := by
  intro n
  induction n using Nat.strong_induction_on with
  | _ n ih =>
    intro st data hn hst hmod
    rcases Decidable.em (data = []) with h | h
    · subst h
      simpa [cipherEncrypt_nil] using hst
    · have hpos : 0 < data.length := List.length_pos.mpr h
      have h16 : BLOCKSIZE ≤ data.length := by
        simp only [BLOCKSIZE] at *
        omega
      have htake : (data.take BLOCKSIZE).length = BLOCKSIZE := by
        rw [List.length_take]
        omega
      have hxor : (xorBlock st (data.take BLOCKSIZE)).length = BLOCKSIZE := by
        rw [xorBlock_length, hst, htake]
        simp
      have hc : (F (xorBlock st (data.take BLOCKSIZE))).length = BLOCKSIZE := hF _ hxor
      have hdroplen : (data.drop BLOCKSIZE).length = data.length - BLOCKSIZE :=
        List.length_drop _ _
      have hdropmod : (data.drop BLOCKSIZE).length % BLOCKSIZE = 0 := by
        rw [hdroplen]
        simp only [BLOCKSIZE] at *
        omega
      have hlt : (data.drop BLOCKSIZE).length < n := by
        rw [hdroplen]
        simp only [BLOCKSIZE] at *
        omega
      have ihh := ih _ hlt (F (xorBlock st (data.take BLOCKSIZE))) (data.drop BLOCKSIZE)
        rfl hc hdropmod
      rw [cipherEncrypt_expand F st data h]
      constructor
      · simp only [List.length_append, hc, ihh.1, hdroplen]
        omega
      · simpa using ihh.2

theorem cipherDecrypt_cipherEncrypt (F G : List Nat → List Nat)
    (hGF : ∀ b : List Nat, b.length = BLOCKSIZE → G (F b) = b)
    (hF : ∀ b : List Nat, b.length = BLOCKSIZE → (F b).length = BLOCKSIZE) :
    ∀ (n : Nat) (st data : List Nat), data.length = n → st.length = BLOCKSIZE →
      data.length % BLOCKSIZE = 0 →
      (cipherDecrypt G st (cipherEncrypt F st data).1).1 = data := by
  intro n
  induction n using Nat.strong_induction_on with
  | _ n ih =>
    intro st data hn hst hmod
    rcases Decidable.em (data = []) with h | h
    · subst h
      simp [cipherEncrypt_nil, cipherDecrypt_nil]
    · have hpos : 0 < data.length := List.length_pos.mpr h
      have h16 : BLOCKSIZE ≤ data.length := by
        simp only [BLOCKSIZE] at *
        omega
      have htake : (data.take BLOCKSIZE).length = BLOCKSIZE := by
        rw [List.length_take]
        omega
      have hxor : (xorBlock st (data.take BLOCKSIZE)).length = BLOCKSIZE := by
        rw [xorBlock_length, hst, htake]
        simp
      have hc : (F (xorBlock st (data.take BLOCKSIZE))).length = BLOCKSIZE := hF _ hxor
      have hcne : F (xorBlock st (data.take BLOCKSIZE)) ≠ [] := by
        intro hcon
        rw [hcon] at hc
        simp at hc
      rw [cipherEncrypt_expand F st data h]
      have hctne : F (xorBlock st (data.take BLOCKSIZE)) ++
          (cipherEncrypt F (F (xorBlock st (data.take BLOCKSIZE))) (data.drop BLOCKSIZE)).1 ≠ [] :=
        fun hcon => hcne (List.append_eq_nil.mp hcon).1
      rw [cipherDecrypt_expand G st _ hctne]
      rw [List.take_append_of_le_length (le_of_eq hc.symm),
        List.drop_append_of_le_length (le_of_eq hc.symm)]
      rw [List.take_of_length_le (le_of_eq hc), List.drop_eq_nil_of_le (le_of_eq hc),
        List.nil_append]
      rw [hGF _ hxor]
      rw [xorBlock_cancel st _ (by rw [hst, htake])]
      have hdroplen : (data.drop BLOCKSIZE).length = data.length - BLOCKSIZE :=
        List.length_drop _ _
      have hdropmod : (data.drop BLOCKSIZE).length % BLOCKSIZE = 0 := by
        rw [hdroplen]
        simp only [BLOCKSIZE] at *
        omega
      have hlt : (data.drop BLOCKSIZE).length < n := by
        rw [hdroplen]
        simp only [BLOCKSIZE] at *
        omega
      rw [ih _ hlt (F (xorBlock st (data.take BLOCKSIZE))) (data.drop BLOCKSIZE) rfl hc hdropmod]
      exact List.take_append_drop _ _

theorem getLastD_append_of_ne_nil (l l2 : List Nat) (h : l2 ≠ []) :
    (l ++ l2).getLastD 0 = l2.getLastD 0 := by
  cases h2 : l2.getLast? with
  | none => exact absurd (List.getLast?_eq_none_iff.mp h2) h
  | some a =>
    simp only [List.getLastD_eq_getLast?, List.getLast?_append, h2, Option.or_some, Option.getD_some]

theorem getLastD_replicate (m x : Nat) : ∀ d : Nat, (List.replicate (m + 1) x).getLastD d = x := by
  induction m with
  | zero => intro d; rfl
  | succ k ih =>
    intro d
    rw [List.replicate_succ, List.getLastD_cons]
    exact ih x

theorem pkcs7_unpad_pkcs7Pad (data : List Nat) : pkcs7_unpad (pkcs7Pad data) = data := by
  have hp := pkcs7_pad_length_pos data.length
  have hlast : (pkcs7Pad data).getLastD 0 = pkcs7_pad_length data.length := by
    unfold pkcs7Pad
    rw [getLastD_append_of_ne_nil _ _ (by
      simp only [ne_eq, List.replicate_eq_nil_iff]
      omega)]
    obtain ⟨m, hm⟩ : ∃ m, pkcs7_pad_length data.length = m + 1 :=
      ⟨pkcs7_pad_length data.length - 1, by omega⟩
    rw [hm]
    exact getLastD_replicate m _ 0
  unfold pkcs7_unpad
  rw [hlast, pkcs7Pad_length]
  have harith : data.length + pkcs7_pad_length data.length - pkcs7_pad_length data.length =
      data.length := by omega
  rw [harith]
  unfold pkcs7Pad
  rw [List.take_append_of_le_length (le_refl _), List.take_length]

/-! ## Claim theorems for the streaming cipher -/

/-- C1: for every block permutation (standing for AES-128 under the
fixed key), every IV, and every way of splitting the plaintext into
the nonempty chunks returned by successive reads, the streaming
encryption of `encrypt_file` — which carries over the trailing
partial block of each chunk — produces ciphertext byte-identical to
whole-buffer CBC encryption with PKCS#7 padding of the concatenated
plaintext. -/
theorem encrypt_file_chunking_irrelevant (F : List Nat → List Nat) (iv : List Nat)
    (chunks : List (List Nat)) (hne : ∀ c ∈ chunks, c ≠ []) :
    encrypt_file F iv chunks = wholeBufferEncrypt F iv chunks.flatten := by
  unfold encrypt_file wholeBufferEncrypt
  simpa using encryptLoop_eq F chunks iv [] hne

/-- Witness for C1: splitting `[1, 2, 3]` as `[1]`, `[2, 3]` gives
the same ciphertext as the whole buffer. -/
theorem encrypt_file_chunking_irrelevant_witness :
    (∀ c ∈ [[1], [2, 3]], c ≠ ([] : List Nat)) ∧
      encrypt_file id [7] [[1], [2, 3]] = wholeBufferEncrypt id [7] [1, 2, 3] :=
  ⟨by decide, encrypt_file_chunking_irrelevant id [7] [[1], [2, 3]] (by decide)⟩

/-- C2: decrypting the ciphertext of `encrypt_file` with standard CBC
decryption (`G` the inverse block permutation) and PKCS#7 unpadding
recovers exactly the original bytes, for plaintext of every length. -/
theorem encrypt_file_roundtrip (F G : List Nat → List Nat) (iv : List Nat)
    (chunks : List (List Nat))
    (hGF : ∀ b : List Nat, b.length = BLOCKSIZE → G (F b) = b)
    (hF : ∀ b : List Nat, b.length = BLOCKSIZE → (F b).length = BLOCKSIZE)
    (hiv : iv.length = BLOCKSIZE)
    (hne : ∀ c ∈ chunks, c ≠ []) :
    pkcs7_unpad (cipherDecrypt G iv (encrypt_file F iv chunks)).1 = chunks.flatten := by
  unfold encrypt_file
  rw [encryptLoop_eq F chunks iv [] hne, List.nil_append]
  rw [cipherDecrypt_cipherEncrypt F G hGF hF (pkcs7Pad chunks.flatten).length iv _ rfl hiv
    (pkcs7Pad_length_mod _)]
  exact pkcs7_unpad_pkcs7Pad _

/-- Witness for C2 at a concrete plaintext and the identity block
permutation. -/
theorem encrypt_file_roundtrip_witness :
    (List.replicate BLOCKSIZE 0).length = BLOCKSIZE ∧
      pkcs7_unpad (cipherDecrypt id (List.replicate BLOCKSIZE 0)
        (encrypt_file id (List.replicate BLOCKSIZE 0) [[5], [6, 7]])).1 = [5, 6, 7] :=
  ⟨by decide, encrypt_file_roundtrip id id (List.replicate BLOCKSIZE 0) [[5], [6, 7]]
    (fun _ _ => rfl) (fun _ hb => hb) (by decide) (by decide)⟩

theorem encrypt_file_length (F : List Nat → List Nat) (iv : List Nat)
    (chunks : List (List Nat))
    (hF : ∀ b : List Nat, b.length = BLOCKSIZE → (F b).length = BLOCKSIZE)
    (hiv : iv.length = BLOCKSIZE)
    (hne : ∀ c ∈ chunks, c ≠ []) :
    (encrypt_file F iv chunks).length =
      chunks.flatten.length + pkcs7_pad_length chunks.flatten.length := by
  unfold encrypt_file
  rw [encryptLoop_eq F chunks iv [] hne, List.nil_append]
  rw [(cipherEncrypt_length F hF (pkcs7Pad chunks.flatten).length iv _ rfl hiv
    (pkcs7Pad_length_mod _)).1]
  exact pkcs7Pad_length _

/-- C3: the padding length is `16 - n % 16`, equal to `16` whenever
`n` is a multiple of 16 (including 0); a zero-byte source (no reads
before end-of-file) yields exactly 16 ciphertext bytes; and the
ciphertext length is the smallest multiple of 16 strictly greater
than the plaintext length. -/
theorem pkcs7_length_spec (F : List Nat → List Nat) (iv : List Nat)
    (chunks : List (List Nat))
    (hF : ∀ b : List Nat, b.length = BLOCKSIZE → (F b).length = BLOCKSIZE)
    (hiv : iv.length = BLOCKSIZE)
    (hne : ∀ c ∈ chunks, c ≠ []) :
    (∀ n : Nat, pkcs7_pad_length n = 16 - n % 16) ∧
    (∀ n : Nat, n % 16 = 0 → pkcs7_pad_length n = 16) ∧
    (encrypt_file F iv []).length = 16 ∧
    (encrypt_file F iv chunks).length % 16 = 0 ∧
    chunks.flatten.length < (encrypt_file F iv chunks).length ∧
    (∀ m, m % 16 = 0 → chunks.flatten.length < m → (encrypt_file F iv chunks).length ≤ m) := by
  have hlen := encrypt_file_length F iv chunks hF hiv hne
  have hlen0 := encrypt_file_length F iv [] hF hiv (by intro c hc; cases hc)
  have hpadeq : ∀ n : Nat, pkcs7_pad_length n = 16 - n % 16 := fun n => rfl
  refine ⟨hpadeq, fun n hn => by rw [hpadeq n, hn], ?_, ?_, ?_, ?_⟩
  · rw [hlen0]
    rfl
  · rw [hlen, hpadeq]
    have hm : chunks.flatten.length % 16 < 16 := Nat.mod_lt _ (by norm_num)
    omega
  · rw [hlen, hpadeq]
    have hm : chunks.flatten.length % 16 < 16 := Nat.mod_lt _ (by norm_num)
    omega
  · intro m hm hlt
    rw [hlen, hpadeq]
    have hm2 : chunks.flatten.length % 16 < 16 := Nat.mod_lt _ (by norm_num)
    omega

/-- Witness for C3 at a concrete one-byte plaintext. -/
theorem pkcs7_length_spec_witness :
    (∀ c ∈ [[9]], c ≠ ([] : List Nat)) ∧
      (encrypt_file id (List.replicate BLOCKSIZE 0) [[9]]).length % 16 = 0 :=
  ⟨by decide, (pkcs7_length_spec id (List.replicate BLOCKSIZE 0) [[9]]
    (fun _ hb => hb) (by decide) (by decide)).2.2.2.1⟩

/-! ## Lemmas about the playlist rewriter -/

theorem findFirstIdx_eq_none (p : α → Bool) :
    ∀ l : List α, (∀ x ∈ l, p x = false) → findFirstIdx p l = none := by
  intro l
  induction l with
  | nil => intro _; rfl
  | cons a as ih =>
    intro h
    unfold findFirstIdx
    rw [h a (List.mem_cons_self a as)]
    simp only [Bool.false_eq_true, if_false]
    rw [ih (fun x hx => h x (List.mem_cons_of_mem a hx))]
    rfl

theorem findFirstIdx_eq_some (p : α → Bool) :
    ∀ (l : List α) (i : Nat) (hi : i < l.length), p (l.get ⟨i, hi⟩) = true →
      (∀ (j : Nat) (hj : j < l.length), j < i → p (l.get ⟨j, hj⟩) = false) →
      findFirstIdx p l = some i := by
  intro l
  induction l with
  | nil => intro i hi; simp at hi
  | cons a as ih =>
    intro i hi hp hbefore
    cases i with
    | zero =>
      have ha : p a = true := hp
      unfold findFirstIdx
      simp [ha]
    | succ k =>
      have ha : p a = false := hbefore 0 (by simp) (Nat.succ_pos k)
      unfold findFirstIdx
      rw [ha]
      simp only [Bool.false_eq_true, if_false]
      rw [ih k (by simpa using hi) (by simpa using hp)
        (fun j hj hjk => by
          simpa using hbefore (j + 1) (by simpa using Nat.succ_lt_succ hj) (by omega))]
      rfl

theorem findFirstIdx_some_spec (p : α → Bool) :
    ∀ (l : List α) (i : Nat), findFirstIdx p l = some i →
      ∃ hi : i < l.length, p (l.get ⟨i, hi⟩) = true := by
  intro l
  induction l with
  | nil => intro i h; simp [findFirstIdx] at h
  | cons a as ih =>
    intro i h
    unfold findFirstIdx at h
    by_cases ha : p a = true
    · rw [if_pos ha] at h
      cases h
      exact ⟨by simp, ha⟩
    · rw [if_neg ha] at h
      rcases Option.map_eq_some'.mp h with ⟨j, hj, hji⟩
      rcases ih j hj with ⟨hjlt, hpj⟩
      subst hji
      exact ⟨by simpa using Nat.succ_lt_succ hjlt, by simpa using hpj⟩

theorem countP_set_true (p : String → Bool) :
    ∀ (l : List String) (i : Nat) (hi : i < l.length) (a : String),
      p (l.get ⟨i, hi⟩) = true → p a = true → (l.set i a).countP p = l.countP p := by
  intro l
  induction l with
  | nil => intro i hi; simp at hi
  | cons x xs ih =>
    intro i hi a hpi hpa
    cases i with
    | zero =>
      have hx : p x = true := hpi
      simp [List.set, List.countP_cons, hx, hpa]
    | succ k =>
      simp only [List.set, List.countP_cons]
      rw [ih k (by simpa using hi) a (by simpa using hpi) hpa]

theorem countP_listInsert (p : String → Bool) (l : List String) (i : Nat) (a : String) :
    (listInsert l i a).countP p = l.countP p + (if p a then 1 else 0) := by
  unfold listInsert
  rw [List.countP_append, List.countP_cons]
  conv_rhs => rw [← List.take_append_drop i l, List.countP_append]
  omega

/-- C4 counterexample: on a playlist that already contains two
`#EXT-X-KEY` lines, `insert_ext_x_key` replaces only the first, so
the output contains two key-tag lines, not exactly one. -/
theorem insert_ext_x_key_two_keys_counterexample :
    (insert_ext_x_key ["#EXT-X-KEY:A\n", "#EXT-X-KEY:B\n"] "#EXT-X-KEY:NEW\n").countP
        (fun l => startswith l "#EXT-X-KEY") = 2 ∧
      ¬ (insert_ext_x_key ["#EXT-X-KEY:A\n", "#EXT-X-KEY:B\n"] "#EXT-X-KEY:NEW\n").countP
        (fun l => startswith l "#EXT-X-KEY") = 1 := by
  constructor
  · decide
  · decide

theorem insert_ext_x_key_eq_of_some (lines : List String) (key_line : String) (i : Nat)
    (h : findFirstIdx (fun l => startswith l "#EXT-X-KEY") lines = some i) :
    insert_ext_x_key lines key_line = lines.set i key_line := by
  unfold insert_ext_x_key
  rw [h]

theorem insert_ext_x_key_eq_of_none (lines : List String) (key_line : String)
    (h : findFirstIdx (fun l => startswith l "#EXT-X-KEY") lines = none) :
    ∃ i, insert_ext_x_key lines key_line = listInsert lines i key_line := by
  unfold insert_ext_x_key
  rw [h]
  exact ⟨_, rfl⟩

theorem findFirstIdx_none_forall (p : α → Bool) :
    ∀ l : List α, findFirstIdx p l = none → ∀ x ∈ l, p x = false := by
  intro l
  induction l with
  | nil => intro _ x hx; cases hx
  | cons a as ih =>
    intro h x hx
    unfold findFirstIdx at h
    by_cases ha : p a = true
    · rw [if_pos ha] at h
      cases h
    · rw [if_neg ha] at h
      rcases List.mem_cons.mp hx with rfl | hx2
      · exact Bool.eq_false_iff.mpr ha
      · exact ih (by simpa using h) x hx2

/-- C4 (amended): for every key line that itself starts with the
key-tag prefix, the output of `insert_ext_x_key` contains
`max 1 k` lines starting with the prefix, where `k` is the number in
the input; in particular at least one, and exactly one whenever the
input playlist contains at most one key-tag line (pre-existing
key-tag lines beyond the first are kept, so the exactly-one invariant
holds only for inputs with at most one). -/
theorem insert_ext_x_key_count (lines : List String) (key_line : String)
    (hk : startswith key_line "#EXT-X-KEY" = true) :
    (insert_ext_x_key lines key_line).countP (fun l => startswith l "#EXT-X-KEY") =
        max 1 (lines.countP (fun l => startswith l "#EXT-X-KEY")) ∧
      1 ≤ (insert_ext_x_key lines key_line).countP (fun l => startswith l "#EXT-X-KEY") ∧
      (lines.countP (fun l => startswith l "#EXT-X-KEY") ≤ 1 →
        (insert_ext_x_key lines key_line).countP (fun l => startswith l "#EXT-X-KEY") = 1) := by
  have hmain : (insert_ext_x_key lines key_line).countP (fun l => startswith l "#EXT-X-KEY") =
      max 1 (lines.countP (fun l => startswith l "#EXT-X-KEY")) := by
    cases hfind : findFirstIdx (fun l => startswith l "#EXT-X-KEY") lines with
    | some i =>
      rcases findFirstIdx_some_spec _ lines i hfind with ⟨hi, hpi⟩
      rw [insert_ext_x_key_eq_of_some lines key_line i hfind]
      rw [countP_set_true _ lines i hi key_line hpi hk]
      have hpos : 0 < lines.countP (fun l => startswith l "#EXT-X-KEY") := by
        rw [List.countP_pos_iff]
        exact ⟨lines.get ⟨i, hi⟩, List.get_mem lines i hi, hpi⟩
      omega
    | none =>
      have hzero : lines.countP (fun l => startswith l "#EXT-X-KEY") = 0 := by
        rw [List.countP_eq_zero]
        exact fun a ha => by rw [findFirstIdx_none_forall _ lines hfind a ha]; simp
      rcases insert_ext_x_key_eq_of_none lines key_line hfind with ⟨j, hj⟩
      rw [hj, countP_listInsert, hzero, hk]
      simp
  refine ⟨hmain, ?_, ?_⟩
  · rw [hmain]
    exact le_max_left _ _
  · intro h1
    rw [hmain]
    omega

/-- Witness for C4 (amended) on a playlist with one key line. -/
theorem insert_ext_x_key_count_witness :
    startswith "#EXT-X-KEY:NEW\n" "#EXT-X-KEY" = true ∧
      (insert_ext_x_key ["#EXTM3U", "#EXT-X-KEY:OLD\n"] "#EXT-X-KEY:NEW\n").countP
        (fun l => startswith l "#EXT-X-KEY") =
        max 1 (["#EXTM3U", "#EXT-X-KEY:OLD\n"].countP (fun l => startswith l "#EXT-X-KEY")) :=
  ⟨by decide, (insert_ext_x_key_count ["#EXTM3U", "#EXT-X-KEY:OLD\n"] "#EXT-X-KEY:NEW\n"
    (by decide)).1⟩

theorem insert_ext_x_key_eq_of_map (lines : List String) (key_line : String) (i : Nat)
    (hkey : findFirstIdx (fun l => startswith l "#EXT-X-KEY") lines = none)
    (hmap : findFirstIdx (fun l => startswith l "#EXT-X-MAP") lines = some i) :
    insert_ext_x_key lines key_line = listInsert lines i key_line := by
  unfold insert_ext_x_key
  rw [hkey, hmap]

theorem insert_ext_x_key_eq_of_extinf (lines : List String) (key_line : String) (i : Nat)
    (hkey : findFirstIdx (fun l => startswith l "#EXT-X-KEY") lines = none)
    (hmap : findFirstIdx (fun l => startswith l "#EXT-X-MAP") lines = none)
    (hinf : findFirstIdx (fun l => startswith l "#EXTINF" || !startswith l "#") lines = some i) :
    insert_ext_x_key lines key_line = listInsert lines i key_line := by
  unfold insert_ext_x_key
  rw [hkey, hmap, hinf]

theorem insert_ext_x_key_eq_of_all_none (lines : List String) (key_line : String)
    (hkey : findFirstIdx (fun l => startswith l "#EXT-X-KEY") lines = none)
    (hmap : findFirstIdx (fun l => startswith l "#EXT-X-MAP") lines = none)
    (hinf : findFirstIdx (fun l => startswith l "#EXTINF" || !startswith l "#") lines = none) :
    insert_ext_x_key lines key_line = lines ++ [key_line] := by
  unfold insert_ext_x_key
  rw [hkey, hmap, hinf]
  show listInsert lines lines.length key_line = lines ++ [key_line]
  unfold listInsert
  rw [List.take_length, List.drop_length]

/-- C5: the placement priority of `insert_ext_x_key`: (1) the first
line starting with the key-tag prefix, if any, is replaced in place,
all other lines and the line count are preserved; (2) else the new
line is inserted immediately before the first line starting with the
fragment-map tag prefix, keeping the relative order of all other
lines; (3) else before the first line that starts with the
segment-info prefix or is not a comment; (4) else it is appended at
the end. -/
theorem insert_ext_x_key_placement (lines : List String) (key_line : String) :
    (∀ (i : Nat) (hi : i < lines.length),
        startswith (lines.get ⟨i, hi⟩) "#EXT-X-KEY" = true →
        (∀ (j : Nat) (hj : j < lines.length), j < i →
          startswith (lines.get ⟨j, hj⟩) "#EXT-X-KEY" = false) →
        insert_ext_x_key lines key_line = lines.take i ++ key_line :: lines.drop (i + 1) ∧
          (insert_ext_x_key lines key_line).length = lines.length) ∧
    ((∀ l ∈ lines, startswith l "#EXT-X-KEY" = false) →
      ∀ (i : Nat) (hi : i < lines.length),
        startswith (lines.get ⟨i, hi⟩) "#EXT-X-MAP" = true →
        (∀ (j : Nat) (hj : j < lines.length), j < i →
          startswith (lines.get ⟨j, hj⟩) "#EXT-X-MAP" = false) →
        insert_ext_x_key lines key_line = lines.take i ++ key_line :: lines.drop i ∧
          (insert_ext_x_key lines key_line).length = lines.length + 1) ∧
    ((∀ l ∈ lines, startswith l "#EXT-X-KEY" = false ∧ startswith l "#EXT-X-MAP" = false) →
      ∀ (i : Nat) (hi : i < lines.length),
        (startswith (lines.get ⟨i, hi⟩) "#EXTINF" ||
          !startswith (lines.get ⟨i, hi⟩) "#") = true →
        (∀ (j : Nat) (hj : j < lines.length), j < i →
          (startswith (lines.get ⟨j, hj⟩) "#EXTINF" ||
            !startswith (lines.get ⟨j, hj⟩) "#") = false) →
        insert_ext_x_key lines key_line = lines.take i ++ key_line :: lines.drop i) ∧
    ((∀ l ∈ lines, startswith l "#EXT-X-KEY" = false ∧ startswith l "#EXT-X-MAP" = false ∧
        (startswith l "#EXTINF" || !startswith l "#") = false) →
      insert_ext_x_key lines key_line = lines ++ [key_line]) := by
  refine ⟨?_, ?_, ?_, ?_⟩
  · intro i hi hpi hbefore
    have hfind := findFirstIdx_eq_some (fun l => startswith l "#EXT-X-KEY") lines i hi hpi hbefore
    rw [insert_ext_x_key_eq_of_some lines key_line i hfind]
    exact ⟨List.set_eq_take_cons_drop key_line hi, List.length_set lines i key_line⟩
  · intro hnokey i hi hpi hbefore
    have hkey := findFirstIdx_eq_none (fun l => startswith l "#EXT-X-KEY") lines hnokey
    have hmap := findFirstIdx_eq_some (fun l => startswith l "#EXT-X-MAP") lines i hi hpi hbefore
    rw [insert_ext_x_key_eq_of_map lines key_line i hkey hmap]
    refine ⟨rfl, ?_⟩
    unfold listInsert
    simp only [List.length_append, List.length_cons, List.length_take, List.length_drop]
    omega
  · intro hno i hi hpi hbefore
    have hkey := findFirstIdx_eq_none (fun l => startswith l "#EXT-X-KEY") lines
      (fun x hx => (hno x hx).1)
    have hmap := findFirstIdx_eq_none (fun l => startswith l "#EXT-X-MAP") lines
      (fun x hx => (hno x hx).2)
    have hinf := findFirstIdx_eq_some
      (fun l => startswith l "#EXTINF" || !startswith l "#") lines i hi hpi hbefore
    rw [insert_ext_x_key_eq_of_extinf lines key_line i hkey hmap hinf]
    rfl
  · intro hno
    exact insert_ext_x_key_eq_of_all_none lines key_line
      (findFirstIdx_eq_none _ lines (fun x hx => (hno x hx).1))
      (findFirstIdx_eq_none _ lines (fun x hx => (hno x hx).2.1))
      (findFirstIdx_eq_none _ lines (fun x hx => (hno x hx).2.2))

/-- Witness for C5: the fragment-map branch at a concrete playlist. -/
theorem insert_ext_x_key_placement_witness :
    insert_ext_x_key ["#EXTM3U", "#EXT-X-MAP:URI=x"] "K" =
      ["#EXTM3U", "K", "#EXT-X-MAP:URI=x"] := by
  have h := (insert_ext_x_key_placement ["#EXTM3U", "#EXT-X-MAP:URI=x"] "K").2.1
    (by decide) 1 (by decide) (by decide)
    (fun j hj hjlt => by
      have hj0 : j = 0 := by omega
      subst hj0
      show startswith "#EXTM3U" "#EXT-X-MAP" = false
      decide)
  exact h.1

/-! ## Lemmas about the dedup dictionary -/

theorem dictGet_dictSet (d : List (String × Int)) (k : String) (v : Int) :
    dictGet (dictSet d k v) k = some v := by
  induction d with
  | nil => simp [dictSet, dictGet]
  | cons kv rest ih =>
    by_cases h : kv.1 = k
    · simp [dictSet, dictGet, h]
    · simp [dictSet, dictGet, h, ih]

theorem should_process_none_case (d : List (String × Int)) (p : String) (m : Int)
    (h : dictGet d p = none) :
    _should_process d p (some m) = (dictSet d p m, true) := by
  unfold _should_process
  rw [h]

theorem should_process_le_case (d : List (String × Int)) (p : String) (m prev : Int)
    (h : dictGet d p = some prev) (hle : m ≤ prev) :
    _should_process d p (some m) = (d, false) := by
  unfold _should_process
  rw [h]
  simp [hle]

theorem should_process_gt_case (d : List (String × Int)) (p : String) (m prev : Int)
    (h : dictGet d p = some prev) (hgt : prev < m) :
    _should_process d p (some m) = (dictSet d p m, true) := by
  unfold _should_process
  rw [h]
  simp [not_le.mpr hgt]

/-- C6: `_should_process` updates the stored entry and allows
processing exactly when the event modification time is strictly
greater than the stored one or no entry exists; a skipped event
leaves the dictionary untouched; and of two consecutive events with
equal modification times the second is always refused, so when the
first one passes, exactly one processing pass happens. -/
theorem should_process_dedup (d : List (String × Int)) (p : String) (m : Int) :
    ((_should_process d p (some m)).2 = true ↔
        (dictGet d p = none ∨ ∃ prev, dictGet d p = some prev ∧ prev < m)) ∧
    (∀ mt : Option Int, (_should_process d p mt).2 = false → (_should_process d p mt).1 = d) ∧
    ((_should_process d p (some m)).2 = true →
      (_should_process d p (some m)).1 = dictSet d p m) ∧
    (_should_process (_should_process d p (some m)).1 p (some m)).2 = false ∧
    ((dictGet d p = none ∨ ∃ prev, dictGet d p = some prev ∧ prev < m) →
      (_should_process d p (some m)).2 = true ∧
        (_should_process (_should_process d p (some m)).1 p (some m)).2 = false) := by
  have hsecond : (_should_process (_should_process d p (some m)).1 p (some m)).2 = false := by
    cases hd : dictGet d p with
    | none =>
      rw [should_process_none_case d p m hd]
      rw [should_process_le_case (dictSet d p m) p m m (dictGet_dictSet d p m) (le_refl m)]
    | some prev =>
      rcases le_or_lt m prev with hle | hgt
      · rw [should_process_le_case d p m prev hd hle]
        rw [should_process_le_case d p m prev hd hle]
      · rw [should_process_gt_case d p m prev hd hgt]
        rw [should_process_le_case (dictSet d p m) p m m (dictGet_dictSet d p m) (le_refl m)]
  have hiff : (_should_process d p (some m)).2 = true ↔
      (dictGet d p = none ∨ ∃ prev, dictGet d p = some prev ∧ prev < m) := by
    cases hd : dictGet d p with
    | none =>
      rw [should_process_none_case d p m hd]
      simp
    | some prev =>
      rcases le_or_lt m prev with hle | hgt
      · rw [should_process_le_case d p m prev hd hle]
        simp only [Bool.false_eq_true, false_iff]
        rintro (hcon | ⟨q, hq, hqlt⟩)
        · cases hcon
        · cases hq
          omega
      · rw [should_process_gt_case d p m prev hd hgt]
        simp only [true_iff]
        exact Or.inr ⟨prev, rfl, hgt⟩
  refine ⟨hiff, ?_, ?_, hsecond, fun h => ⟨hiff.mpr h, hsecond⟩⟩
  · intro mt hf
    cases mt with
    | none => rfl
    | some m2 =>
      cases hd : dictGet d p with
      | none =>
        rw [should_process_none_case d p m2 hd] at hf
        cases hf
      | some prev =>
        rcases le_or_lt m2 prev with hle | hgt
        · rw [should_process_le_case d p m2 prev hd hle]
        · rw [should_process_gt_case d p m2 prev hd hgt] at hf
          cases hf
  · intro ht
    cases hd : dictGet d p with
    | none => rw [should_process_none_case d p m hd]
    | some prev =>
      rcases le_or_lt m prev with hle | hgt
      · rw [should_process_le_case d p m prev hd hle] at ht
        cases ht
      · rw [should_process_gt_case d p m prev hd hgt]

/-- Witness for C6: on an empty dictionary the first of two
equal-mtime events passes and the second is refused. -/
theorem should_process_dedup_witness :
    (_should_process ([] : List (String × Int)) "a" (some 3)).2 = true ∧
      (_should_process (_should_process ([] : List (String × Int)) "a" (some 3)).1 "a"
        (some 3)).2 = false :=
  (should_process_dedup [] "a" 3).2.2.2.2 (Or.inl rfl)

/-! ## Lemmas about the stability polling loop -/

theorem stableLoop_zero (obs : Nat → Option Int) (last : Int) (k : Nat) :
    stableLoop obs 0 last k = false := rfl

theorem stableLoop_succ_none (obs : Nat → Option Int) (t : Nat) (last : Int) (k : Nat)
    (h : obs k = none) : stableLoop obs (t + 1) last k = false := by
  unfold stableLoop
  rw [h]

theorem stableLoop_succ_eq (obs : Nat → Option Int) (t : Nat) (last : Int) (k : Nat)
    (size : Int) (h : obs k = some size) (he : size = last) :
    stableLoop obs (t + 1) last k = true := by
  unfold stableLoop
  rw [h]
  simp [he]

theorem stableLoop_succ_ne (obs : Nat → Option Int) (t : Nat) (last : Int) (k : Nat)
    (size : Int) (h : obs k = some size) (he : ¬ size = last) :
    stableLoop obs (t + 1) last k = stableLoop obs t size (k + 1) := by
  conv_lhs => unfold stableLoop
  rw [h]
  simp [he]

theorem stableLoop_true (obs : Nat → Option Int)
    (hnn : ∀ i s, obs i = some s → 0 ≤ s) :
    ∀ (tries k : Nat) (last : Int),
      (k = 0 → last = -1) → (0 < k → obs (k - 1) = some last) →
      stableLoop obs tries last k = true →
      ∃ j s, 0 < j ∧ k ≤ j ∧ j < k + tries ∧ obs j = some s ∧ obs (j - 1) = some s := by
  intro tries
  induction tries with
  | zero =>
    intro k last h0 hk h
    rw [stableLoop_zero] at h
    cases h
  | succ t ih =>
    intro k last h0 hk h
    cases hko : obs k with
    | none =>
      rw [stableLoop_succ_none obs t last k hko] at h
      cases h
    | some size =>
      by_cases heq : size = last
      · rcases Nat.eq_zero_or_pos k with hk0 | hkpos
        · exfalso
          have hl := h0 hk0
          have hge := hnn k size hko
          omega
        · refine ⟨k, size, hkpos, le_refl k, by omega, hko, ?_⟩
          rw [hk hkpos, heq]
      · rw [stableLoop_succ_ne obs t last k size hko heq] at h
        rcases ih (k + 1) size (by omega) (by intro _; simpa using hko) h with
          ⟨j, s, hj0, hjk, hjlt, hj1, hj2⟩
        exact ⟨j, s, hj0, by omega, by omega, hj1, hj2⟩

theorem stableLoop_vanish (obs : Nat → Option Int)
    (hnn : ∀ i s, obs i = some s → 0 ≤ s) :
    ∀ (tries k : Nat) (last : Int) (kv : Nat),
      (k = 0 → last = -1) → (0 < k → obs (k - 1) = some last) →
      k ≤ kv → kv < k + tries → obs kv = none →
      (∀ i, k ≤ i → i < kv → ∃ s, obs i = some s) →
      (∀ j, k ≤ j → 0 < j → j < kv → obs j ≠ obs (j - 1)) →
      stableLoop obs tries last k = false := by
  intro tries
  induction tries with
  | zero => intro k last kv _ _ _ _ _ _ _; rfl
  | succ t ih =>
    intro k last kv h0 hk hlekv hltkv hnone hsome hne
    rcases Nat.eq_or_lt_of_le hlekv with heq | hlt
    · exact stableLoop_succ_none obs t last k (heq ▸ hnone)
    · obtain ⟨s, hs⟩ := hsome k (le_refl k) hlt
      have hsne : ¬ s = last := by
        rcases Nat.eq_zero_or_pos k with hk0 | hkpos
        · have hge := hnn k s hs
          have hl := h0 hk0
          omega
        · intro hcon
          apply hne k (le_refl k) hkpos hlt
          rw [hs, hk hkpos, hcon]
      rw [stableLoop_succ_ne obs t last k s hs hsne]
      exact ih (k + 1) s kv (by omega) (by intro _; simpa using hs) (by omega) (by omega)
        hnone (fun i hi1 hi2 => hsome i (by omega) hi2)
        (fun j hj1 hj2 hj3 => hne j (by omega) hj2 hj3)

theorem stableLoop_exhaust (obs : Nat → Option Int)
    (hnn : ∀ i s, obs i = some s → 0 ≤ s) :
    ∀ (tries k : Nat) (last : Int),
      (k = 0 → last = -1) → (0 < k → obs (k - 1) = some last) →
      (∀ j, k ≤ j → 0 < j → j < k + tries → ¬ ∃ s, obs j = some s ∧ obs (j - 1) = some s) →
      stableLoop obs tries last k = false := by
  intro tries
  induction tries with
  | zero => intro k last _ _ _; rfl
  | succ t ih =>
    intro k last h0 hk hnopair
    cases hko : obs k with
    | none => exact stableLoop_succ_none obs t last k hko
    | some s =>
      have hsne : ¬ s = last := by
        rcases Nat.eq_zero_or_pos k with hk0 | hkpos
        · have hge := hnn k s hko
          have hl := h0 hk0
          omega
        · intro hcon
          exact hnopair k (le_refl k) hkpos (by omega)
            ⟨s, hko, by rw [hk hkpos, hcon]⟩
      rw [stableLoop_succ_ne obs t last k s hko hsne]
      exact ih (k + 1) s (by omega) (by intro _; simpa using hko)
        (fun j hj1 hj2 hj3 => hnopair j (by omega) hj2 (by omega))

/-- C7 counterexample: the result returned when the file vanishes at
the first poll is the plain boolean `false`, the very same value
returned when the attempts are exhausted on an ever-growing file —
`_stable_wait` carries no distinct vanished signal. -/
theorem stable_wait_vanish_not_distinct :
    _stable_wait (fun _ => none) 3 = false ∧
      _stable_wait (fun k => some (k : Int)) 3 = false ∧
      _stable_wait (fun _ => none) 3 = _stable_wait (fun k => some (k : Int)) 3 := by
  refine ⟨by decide, by decide, by decide⟩

/-- C7 (amended): `_stable_wait` returns stable only after two
consecutive equal size reads; if the file is removed during polling
it returns not-stable at that poll (the plain `false`, with no
distinct vanished signal); if the attempts are exhausted without two
equal consecutive reads it returns not-stable; and for at most one
attempt it never returns stable.  Sizes read from the filesystem are
nonnegative. -/
theorem stable_wait_spec (obs : Nat → Option Int) (tries : Nat)
    (hnn : ∀ i s, obs i = some s → 0 ≤ s) :
    (_stable_wait obs tries = true →
        ∃ j s, 0 < j ∧ j < tries ∧ obs j = some s ∧ obs (j - 1) = some s) ∧
    (∀ kv, kv < tries → obs kv = none →
        (∀ i, i < kv → ∃ s, obs i = some s) →
        (∀ j, 0 < j → j < kv → obs j ≠ obs (j - 1)) →
        _stable_wait obs tries = false) ∧
    ((∀ j, 0 < j → j < tries → ¬ ∃ s, obs j = some s ∧ obs (j - 1) = some s) →
        _stable_wait obs tries = false) ∧
    (tries ≤ 1 → _stable_wait obs tries = false) := by
  refine ⟨?_, ?_, ?_, ?_⟩
  · intro h
    rcases stableLoop_true obs hnn tries 0 (-1) (fun _ => rfl)
      (fun hcon => absurd hcon (by omega)) h with ⟨j, s, hj0, _, hjlt, h1, h2⟩
    exact ⟨j, s, hj0, by omega, h1, h2⟩
  · intro kv h1 h2 h3 h4
    exact stableLoop_vanish obs hnn tries 0 (-1) kv (fun _ => rfl)
      (fun hcon => absurd hcon (by omega)) (Nat.zero_le kv) (by omega) h2
      (fun i _ hi => h3 i hi) (fun j _ hj1 hj2 => h4 j hj1 hj2)
  · intro h
    exact stableLoop_exhaust obs hnn tries 0 (-1) (fun _ => rfl)
      (fun hcon => absurd hcon (by omega))
      (fun j _ hj1 hj2 => h j hj1 (by omega))
  · intro h1
    exact stableLoop_exhaust obs hnn tries 0 (-1) (fun _ => rfl)
      (fun hcon => absurd hcon (by omega))
      (fun j _ hj1 hj2 => absurd (by omega : j < 1) (by omega))

/-- Witness for C7 (amended): a single attempt never reports stable. -/
theorem stable_wait_spec_witness :
    (1 : Nat) ≤ 1 ∧ _stable_wait (fun _ => some 7) 1 = false :=
  ⟨le_refl 1, (stable_wait_spec (fun _ => some 7) 1
    (fun _ s h => by cases h; omega)).2.2.2 (le_refl 1)⟩

/-! ## Lemmas about delete events and segment processing -/

theorem dictGet_dictPop (d : List (String × Int)) (k : String) :
    dictGet (dictPop d k) k = none := by
  induction d with
  | nil => rfl
  | cons kv rest ih =>
    unfold dictPop at *
    rw [List.filter_cons]
    by_cases h : kv.1 = k
    · simp [h, ih]
    · simp [h, ih, dictGet]

/-- C8 counterexample: a tracked segment path whose mirrored
destination file does not exist (for instance because its encryption
failed after the dedup entry was recorded): the delete event leaves
the dedup entry in place, and a re-creation at the same modification
time is then skipped, contradicting the claim. -/
theorem on_deleted_tracked_counterexample :
    _match_segment ⟨[".m4s"], none⟩ "/src/a.m4s" = true ∧
      dictGet ([("/src/a.m4s", 5)] : List (String × Int)) "/src/a.m4s" = some 5 ∧
      (on_deleted ⟨[".m4s"], none⟩ (fun _ => "/dst/a.m4s")
        ⟨[], [("/src/a.m4s", 5)]⟩ "/src/a.m4s").processed_mtime = [("/src/a.m4s", 5)] ∧
      (_should_process (on_deleted ⟨[".m4s"], none⟩ (fun _ => "/dst/a.m4s")
          ⟨[], [("/src/a.m4s", 5)]⟩ "/src/a.m4s").processed_mtime
        "/src/a.m4s" (some 5)).2 = false := by
  refine ⟨by decide, by decide, by decide, by decide⟩

/-- C8 (amended): a delete event for a path that classifies as a
segment removes the mirrored destination file and clears the dedup
entry provided the mirrored file currently exists — after which a
re-creation at any modification time is processed; when the mirrored
file does not exist, the state is left entirely unchanged (the dedup
entry is retained); delete events for non-segment paths change
nothing. -/
theorem on_deleted_spec (cfg : MatchCfg) (relDst : String → String) (st : WatchState)
    (p : String) :
    (_match_segment cfg p = true → st.mirror.contains (relDst p) = true →
        on_deleted cfg relDst st p =
          ⟨st.mirror.erase (relDst p), dictPop st.processed_mtime p⟩ ∧
        dictGet (on_deleted cfg relDst st p).processed_mtime p = none ∧
        ∀ m : Int,
          (_should_process (on_deleted cfg relDst st p).processed_mtime p (some m)).2 = true) ∧
    (_match_segment cfg p = true → st.mirror.contains (relDst p) = false →
        on_deleted cfg relDst st p = st) ∧
    (_match_segment cfg p = false → on_deleted cfg relDst st p = st) := by
  refine ⟨?_, ?_, ?_⟩
  · intro hm hc
    have heq : on_deleted cfg relDst st p =
        ⟨st.mirror.erase (relDst p), dictPop st.processed_mtime p⟩ := by
      have hmem : relDst p ∈ st.mirror := by simpa using hc
      unfold on_deleted _delete_mirror_path
      simp [hm, hmem]
    refine ⟨heq, ?_, ?_⟩
    · rw [heq]
      exact dictGet_dictPop st.processed_mtime p
    · intro m
      rw [heq]
      rw [should_process_none_case _ p m (dictGet_dictPop st.processed_mtime p)]
  · intro hm hc
    have hmem : relDst p ∉ st.mirror := by simpa using hc
    unfold on_deleted _delete_mirror_path
    simp [hm, hmem]
  · intro hm
    unfold on_deleted
    simp [hm]

/-- Witness for C8 (amended): deleting a tracked segment whose mirror
exists clears its dedup entry. -/
theorem on_deleted_spec_witness :
    _match_segment ⟨[".m4s"], none⟩ "/src/a.m4s" = true ∧
      dictGet (on_deleted ⟨[".m4s"], none⟩ (fun _ => "/dst/a.m4s")
        ⟨["/dst/a.m4s"], [("/src/a.m4s", 5)]⟩ "/src/a.m4s").processed_mtime
        "/src/a.m4s" = none :=
  ⟨by decide, ((on_deleted_spec ⟨[".m4s"], none⟩ (fun _ => "/dst/a.m4s")
    ⟨["/dst/a.m4s"], [("/src/a.m4s", 5)]⟩ "/src/a.m4s").1 (by decide) (by decide)).2.1⟩

theorem should_process_true_state (d : List (String × Int)) (p : String) (m : Int)
    (h : (_should_process d p (some m)).2 = true) :
    (_should_process d p (some m)).1 = dictSet d p m := by
  cases hd : dictGet d p with
  | none => rw [should_process_none_case d p m hd]
  | some prev =>
    rcases le_or_lt m prev with hle | hgt
    · rw [should_process_le_case d p m prev hd hle] at h
      cases h
    · rw [should_process_gt_case d p m prev hd hgt]

theorem process_segment_vanish (d : List (String × Int)) (p : String)
    (fsMtime : Option Int) (e : Bool) :
    _process_segment d p false fsMtime e = (d, SegOutcome.skippedVanished) := by
  unfold _process_segment
  simp

theorem process_segment_skip (d : List (String × Int)) (p : String) (mt : Option Int)
    (e : Bool) (h : (_should_process d p mt).2 = false) :
    _process_segment d p true mt e = ((_should_process d p mt).1, SegOutcome.skippedDedup) := by
  unfold _process_segment
  simp [h]

theorem process_segment_go (d : List (String × Int)) (p : String) (mt : Option Int)
    (e : Bool) (h : (_should_process d p mt).2 = true) :
    _process_segment d p true mt e = ((_should_process d p mt).1,
      if e then SegOutcome.processed else SegOutcome.encryptFailed) := by
  unfold _process_segment
  simp [h]

/-- C9: there is no retry.  After an attempt that actually processed
the file (successfully or with a failing encryption), the dedup
dictionary records the event modification time; any later event
carrying a modification time that is not strictly greater performs
no processing and changes no state, and a later event is processed
only when its modification time is strictly greater.  An attempt
skipped because the file vanished changes no state at all, so
repeating it performs no processing either. -/
theorem process_segment_no_retry (d : List (String × Int)) (p : String) (m : Int)
    (encOk : Bool) :
    ((_process_segment d p true (some m) encOk).2 = SegOutcome.processed ∨
        (_process_segment d p true (some m) encOk).2 = SegOutcome.encryptFailed →
      dictGet (_process_segment d p true (some m) encOk).1 p = some m ∧
      (∀ (m2 : Int) (encOk2 : Bool), m2 ≤ m →
        _process_segment (_process_segment d p true (some m) encOk).1 p true (some m2) encOk2 =
          ((_process_segment d p true (some m) encOk).1, SegOutcome.skippedDedup)) ∧
      (∀ (m2 : Int) (encOk2 : Bool),
        ((_process_segment (_process_segment d p true (some m) encOk).1 p true (some m2)
            encOk2).2 = SegOutcome.processed ∨
          (_process_segment (_process_segment d p true (some m) encOk).1 p true (some m2)
            encOk2).2 = SegOutcome.encryptFailed) → m < m2)) ∧
    (∀ (fsMtime : Option Int) (e : Bool),
      (_process_segment d p false fsMtime e).1 = d ∧
        (_process_segment d p false fsMtime e).2 = SegOutcome.skippedVanished) := by
  constructor
  · intro h
    by_cases hsp : (_should_process d p (some m)).2 = true
    · have hst : (_process_segment d p true (some m) encOk).1 = dictSet d p m := by
        rw [process_segment_go d p (some m) encOk hsp]
        exact should_process_true_state d p m hsp
      have hget : dictGet (_process_segment d p true (some m) encOk).1 p = some m := by
        rw [hst]
        exact dictGet_dictSet d p m
      refine ⟨hget, ?_, ?_⟩
      · intro m2 encOk2 hle
        have hscnd : (_should_process (_process_segment d p true (some m) encOk).1 p
            (some m2)).2 = false := by
          rw [should_process_le_case _ p m2 m hget hle]
        rw [process_segment_skip _ p (some m2) encOk2 hscnd]
        rw [should_process_le_case _ p m2 m hget hle]
      · intro m2 encOk2 h2
        by_contra hcon
        have hle : m2 ≤ m := by omega
        have hscnd : (_should_process (_process_segment d p true (some m) encOk).1 p
            (some m2)).2 = false := by
          rw [should_process_le_case _ p m2 m hget hle]
        rw [process_segment_skip _ p (some m2) encOk2 hscnd] at h2
        rcases h2 with h2 | h2 <;> simp at h2
    · exfalso
      have hf : (_should_process d p (some m)).2 = false := by
        cases hb : (_should_process d p (some m)).2
        · rfl
        · exact absurd hb hsp
      rw [process_segment_skip d p (some m) encOk hf] at h
      rcases h with h | h <;> simp at h
  · intro fsMtime e
    rw [process_segment_vanish d p fsMtime e]
    exact ⟨rfl, rfl⟩

/-- Witness for C9: a failed encryption records the mtime; the
repeated equal-mtime event is refused. -/
theorem process_segment_no_retry_witness :
    ((_process_segment [] "a" true (some 3) false).2 = SegOutcome.processed ∨
        (_process_segment [] "a" true (some 3) false).2 = SegOutcome.encryptFailed) ∧
      _process_segment (_process_segment [] "a" true (some 3) false).1 "a" true (some 3) true =
        ((_process_segment [] "a" true (some 3) false).1, SegOutcome.skippedDedup) :=
  ⟨Or.inr (by decide),
    ((process_segment_no_retry [] "a" 3 false).1 (Or.inr (by decide))).2.1 3 true (le_refl 3)⟩

/-- C10: with no IV configured, the IV actually passed to the
encryption of every segment is the all-zero 16-byte value, while the
generated `EXT-X-KEY` manifest tag consists of the method and URI
attributes only — it carries no `IV=` attribute, so the IV used never
appears in the manifest in this configuration. -/
theorem no_iv_configured_spec (uri : String) :
    ivOr none = List.replicate 16 0 ∧
      (ivOr none).length = 16 ∧
      (∀ b ∈ ivOr none, b = 0) ∧
      build_ext_x_key uri none = "#EXT-X-KEY:METHOD=AES-128,URI=\"" ++ uri ++ "\"" ++ "\n" := by
  refine ⟨rfl, rfl, ?_, rfl⟩
  intro b hb
  exact List.eq_of_mem_replicate hb
